import Mathlib

/-!
Verification development for the `create-app` command-line application
scaffold.  Go strings are modelled as lists of characters (`Str`); the
byte-level operations of the Go standard library (`strings.Index`,
`strings.Split`, slicing) are modelled as the corresponding operations on
character lists, which agree with the source on the ASCII data the program
manipulates.  Stateful operations are modelled by explicit state passing.
-/

namespace CreateApp

/-- Go strings modelled as lists of characters. -/
abbrev Str := List Char

/-- Characters of a Lean string literal, used to embed Go string literals. -/
def chars (s : String) : Str := s.data

/-- `strings.Repeat(string(c), n)` for a single character. -/
def repChar (n : Nat) (c : Char) : Str := List.replicate n c

/-- `strings.ToUpper` (character-wise upper-casing, as in Go for ASCII). -/
def toUpperL (s : Str) : Str := s.map Char.toUpper

/-- `strings.Split(s, "\n")`: split on every newline; `n` separators give
`n+1` pieces. -/
def splitNl : Str → List Str
  | [] => [[]]
  | c :: rest =>
    match splitNl rest with
    | r :: rs => if c = '\n' then [] :: r :: rs else (c :: r) :: rs
    | [] => [[]]

/-- `strings.Join(pieces, "\n")`. -/
def joinNl : List Str → Str
  | [] => []
  | [a] => a
  | a :: b :: rest => a ++ '\n' :: joinNl (b :: rest)

/-- Index of the first character satisfying `p` (Go `strings.IndexFunc`
style; `none` models Go's `-1`). -/
def firstIdxP (p : Char → Bool) : Str → Option Nat
  | [] => none
  | c :: rest => if p c then some 0 else (firstIdxP p rest).map (· + 1)

/-- Index of the last character satisfying `p` (`none` models Go's `-1`). -/
def lastIdxP (p : Char → Bool) : Str → Option Nat
  | [] => none
  | c :: rest =>
    match lastIdxP p rest with
    | some k => some (k + 1)
    | none => if p c then some 0 else none

/-- `strings.LastIndexAny(s, cutset)`. -/
def lastIdxAny (s : Str) (cutset : List Char) : Option Nat :=
  lastIdxP (fun c => cutset.contains c) s

/-- `strings.LastIndex(s, string(c))` for a one-character pattern. -/
def lastIdxOf (s : Str) (c : Char) : Option Nat :=
  lastIdxP (fun x => x == c) s

/-- `strings.Index(s, pat)`: index of the first occurrence of `pat` in `s`
(`none` models Go's `-1`). -/
def indexOfSub? (s pat : Str) : Option Nat :=
  if pat.isPrefixOf s then some 0
  else
    match s with
    | [] => none
    | _ :: rest => (indexOfSub? rest pat).map (· + 1)

/-- `strings.Replace(s, "\n", "\n" + indent, -1)`. -/
def replaceNl (s : Str) (indent : Str) : Str :=
  s.flatMap (fun c => if c == '\n' then '\n' :: indent else [c])

/-- The backquote character, written by code point to keep sources plain. -/
def backq : Char := Char.ofNat 96

/-!
## The external flag-collection primitive (pflag)

The repository renders help text through `pflag.FlagSet.FlagUsagesWrapped`
and its helpers `wrapN`/`wrap`/`UnquoteUsage`; these collaborator functions
are modelled here directly from the library sources so that the renderer's
behaviour can be settled.  A flag records the fields that
`FlagUsagesWrapped` consults.
-/

/-- One registered flag of the external flag library. -/
structure PFlag where
  name : Str
  shorthand : Str
  /-- The string returned by `Value.Type()` (for example `"bool"`, `"int"`). -/
  typ : Str
  usage : Str
  defValue : Str
  noOptDefVal : Str
  deprecated : Str
  shorthandDeprecated : Str
  hidden : Bool
deriving DecidableEq

/-- A flag collection (`pflag.FlagSet`); pflag stores flags keyed by name,
so a realisable collection never holds two flags with the same name. -/
structure FlagSetM where
  flags : List PFlag
deriving DecidableEq

def emptyFS : FlagSetM := ⟨[]⟩

/-- Byte-wise (here: code-point-wise) string comparison, as Go's `<=` on
strings; UTF-8 byte order coincides with code-point order. -/
def leStr : Str → Str → Bool
  | [], _ => true
  | _ :: _, [] => false
  | a :: as, b :: bs =>
    if a.toNat = b.toNat then leStr as bs else decide (a.toNat < b.toNat)

/-- Name order on flags. -/
def nameLe (a b : PFlag) : Prop := leStr a.name b.name = true

instance : DecidableRel nameLe := fun a b =>
  instDecidableEqBool (leStr a.name b.name) true

/-- `sortFlags`: pflag's `VisitAll` visits flags sorted by name when
`SortFlags` is set (the default, and what `buildCommand` sets).  Names are
unique in a realisable set, so any name-sorted order agrees with the
source. -/
def sortByName (l : List PFlag) : List PFlag := l.insertionSort nameLe

/-- The visible flags in visiting order: sorted by name, hidden flags
skipped (the skip is done by the `FlagUsagesWrapped` callback). -/
def visibleSorted (s : FlagSetM) : List PFlag :=
  (sortByName s.flags).filter (fun f => !f.hidden)

/-- pflag `wrapN(i, slop, s)`: split off an initial substring of at most
`i` characters at white space, going `slop` over if that takes the whole
string. -/
def wrapN (i slop : Nat) (s : Str) : Str × Str :=
  if s.length < i + slop then (s, [])
  else
    match lastIdxAny (s.take i) [' ', '\t', '\n'] with
    | none => (s, [])
    | some w =>
      if w = 0 then (s, [])
      else
        match lastIdxOf (s.take i) '\n' with
        | some nl =>
          if 0 < nl ∧ nl < w then (s.take nl, s.drop (nl + 1))
          else (s.take w, s.drop (w + 1))
        | none => (s.take w, s.drop (w + 1))

theorem wrapN_snd_length (i slop : Nat) (s : Str) (h : s ≠ []) :
    (wrapN i slop s).2.length < s.length := by
  have hpos : 0 < s.length := List.length_pos.mpr h
  unfold wrapN
  split
  · simpa using hpos
  · split
    · simpa using hpos
    · split
      · simpa using hpos
      · split
        · split
          · simp only [List.length_drop]
            omega
          · simp only [List.length_drop]
            omega
        · simp only [List.length_drop]
          omega

/-- The repeated tail of pflag `wrap`'s loop, with explicit fuel so that
the function evaluates by structural recursion: each further chunk on its
own line with `i` spaces of indent, the chunk's own embedded newlines
re-indented likewise (`strings.Replace(t, "\n", "\n"+Repeat(" ", i))`).
The remainder shrinks on every pass (`wrapN_snd_length`), so fuel equal to
the string length never runs out; `wrapRest_eq` below proves the loop's
natural recurrence. -/
def wrapRestAux (i wr2 slop : Nat) : Nat → Str → Str
  | _, [] => []
  | 0, _ :: _ => []
  | Nat.succ fuel, c :: cs =>
    let p := wrapN wr2 slop (c :: cs)
    ('\n' :: repChar i ' ' ++ replaceNl p.1 (repChar i ' '))
      ++ wrapRestAux i wr2 slop fuel p.2

/-- pflag `wrap`'s `for s != ""` loop. -/
def wrapRest (i wr2 slop : Nat) (s : Str) : Str :=
  wrapRestAux i wr2 slop s.length s

theorem wrapRestAux_irrel (i wr2 slop : Nat) :
    ∀ (fuel₁ : Nat) (s : Str), s.length ≤ fuel₁ → ∀ fuel₂ : Nat,
      s.length ≤ fuel₂ →
      wrapRestAux i wr2 slop fuel₁ s = wrapRestAux i wr2 slop fuel₂ s := by
  intro fuel₁
  induction fuel₁ with
  | zero =>
    intro s hs fuel₂ _
    have hnil : s = [] := List.eq_nil_of_length_eq_zero (Nat.le_zero.mp hs)
    subst hnil
    cases fuel₂ <;> rfl
  | succ f ih =>
    intro s hs fuel₂ h2
    cases s with
    | nil => cases fuel₂ <;> rfl
    | cons c cs =>
      cases fuel₂ with
      | zero => simp at h2
      | succ f2 =>
        simp only [wrapRestAux]
        congr 1
        have hlt := wrapN_snd_length wr2 slop (c :: cs) (by simp)
        simp only [List.length_cons] at hs h2 hlt
        exact ih (wrapN wr2 slop (c :: cs)).2 (by omega) f2 (by omega)

/-- The loop recurrence of `wrapRest`: the fuel is always sufficient. -/
theorem wrapRest_eq (i wr2 slop : Nat) (s : Str) :
    wrapRest i wr2 slop s
      = if s = [] then []
        else ('\n' :: repChar i ' '
          ++ replaceNl (wrapN wr2 slop s).1 (repChar i ' '))
          ++ wrapRest i wr2 slop (wrapN wr2 slop s).2 := by
  cases s with
  | nil => rfl
  | cons c cs =>
    rw [if_neg (by simp)]
    show wrapRestAux i wr2 slop (c :: cs).length (c :: cs) = _
    simp only [List.length_cons, wrapRestAux]
    congr 1
    have hlt := wrapN_snd_length wr2 slop (c :: cs) (by simp)
    simp only [List.length_cons] at hlt
    exact wrapRestAux_irrel i wr2 slop cs.length _ (by omega) _ (le_refl _)

/-- The common tail of pflag `wrap` once the effective width is known:
first chunk in place (its embedded newlines re-indented), remaining chunks
on indented lines.  `wr2` is the width after the slop of 5 is removed. -/
def wrapMain (i wr2 : Nat) (s : Str) : Str :=
  let p := wrapN wr2 5 s
  replaceNl p.1 (repChar i ' ') ++ wrapRest i wr2 5 p.2

/-- pflag `wrap(i, w, s)` (v1.0.5): at `w = 0` only embedded newlines are
re-indented (`strings.Replace(s, "\n", "\n"+Repeat(" ", i))`, no
wrapping); when fewer than 24 columns remain (`w - i < 24` over Go ints,
here `w < i + 24`), the text moves to its own block — indent set to 16, a
`"\n" + 16 spaces` prefix emitted — and is wrapped at the new width
`w - 16`, or merely re-indented if even that leaves under 24 columns;
otherwise it is wrapped in place at width `w - i`. -/
def wrap (i w : Nat) (s : Str) : Str :=
  if w = 0 then replaceNl s (repChar i ' ')
  else if w < i + 24 then
    if w < 16 + 24 then
      ('\n' :: repChar 16 ' ') ++ replaceNl s (repChar 16 ' ')
    else ('\n' :: repChar 16 ' ') ++ wrapMain 16 (w - 16 - 5) s
  else wrapMain i (w - i - 5) s

/-- pflag `UnquoteUsage`'s fallback: the placeholder name derived from the
value type. -/
def typeVarname (typ : Str) : Str :=
  if typ = chars "bool" then []
  else if typ = chars "float64" then chars "float"
  else if typ = chars "int64" then chars "int"
  else if typ = chars "uint64" then chars "uint"
  else if typ = chars "stringSlice" then chars "strings"
  else if typ = chars "intSlice" then chars "ints"
  else if typ = chars "uintSlice" then chars "uints"
  else if typ = chars "boolSlice" then chars "bools"
  else typ

/-- pflag `UnquoteUsage(flag)`: extract a back-quoted placeholder from the
usage string, or fall back to the type-derived placeholder. -/
def unquoteUsage (typ usage : Str) : Str × Str :=
  match firstIdxP (fun c => c == backq) usage with
  | some i =>
    match firstIdxP (fun c => c == backq) (usage.drop (i + 1)) with
    | some j =>
      let nm := (usage.drop (i + 1)).take j
      (nm, usage.take i ++ nm ++ usage.drop (i + 1 + j + 1))
    | none => (typeVarname typ, usage)
  | none => (typeVarname typ, usage)

/-- Go `strconv`-style quoting as produced by the `%q` verb, for the
escapes relevant to the data in use. -/
def goQuote (s : Str) : Str :=
  '"' :: s.flatMap (fun c =>
    if c == '"' then ['\\', '"']
    else if c == '\\' then ['\\', '\\']
    else if c == '\n' then ['\\', 'n']
    else if c == '\t' then ['\\', 't']
    else [c]) ++ ['"']

/-- pflag `Flag.defaultIsZeroValue`, modelled over the `Value.Type()`
string of the value kinds the type switch enumerates. -/
def defaultIsZeroValue (f : PFlag) : Bool :=
  if f.typ = chars "bool" then f.defValue = chars "false"
  else if f.typ = chars "duration" then
    f.defValue = chars "0" || f.defValue = chars "0s"
  else if [chars "int", chars "int8", chars "int32", chars "int64",
      chars "uint", chars "uint8", chars "uint16", chars "uint32",
      chars "uint64", chars "count", chars "float32",
      chars "float64"].contains f.typ then
    f.defValue = chars "0"
  else if f.typ = chars "string" then f.defValue = chars ""
  else if [chars "ip", chars "ipMask", chars "ipNet"].contains f.typ then
    f.defValue = chars ""
  else if [chars "intSlice", chars "stringSlice",
      chars "stringArray"].contains f.typ then
    f.defValue = chars "[]"
  else
    [chars "false", chars "<nil>", chars "", chars "0"].contains f.defValue

/-- The `[=...]` suffix `FlagUsagesWrapped` prints for a flag with a
`NoOptDefVal`. -/
def noOptSuffix (f : PFlag) : Str :=
  if f.noOptDefVal.isEmpty then []
  else if f.typ = chars "string" then
    chars "[=\"" ++ f.noOptDefVal ++ chars "\"]"
  else if f.typ = chars "bool" then
    if f.noOptDefVal = chars "true" then [] else
      chars "[=" ++ f.noOptDefVal ++ chars "]"
  else if f.typ = chars "count" then
    if f.noOptDefVal = chars "+1" then [] else
      chars "[=" ++ f.noOptDefVal ++ chars "]"
  else chars "[=" ++ f.noOptDefVal ++ chars "]"

/-- One flag's line, split at the alignment marker (`\x00` in the source):
the part before the marker and the usage text after it. -/
def flagLine (f : PFlag) : Str × Str :=
  let base :=
    if !f.shorthand.isEmpty && f.shorthandDeprecated.isEmpty then
      chars "  -" ++ f.shorthand ++ chars ", --" ++ f.name
    else chars "      --" ++ f.name
  let vu := unquoteUsage f.typ f.usage
  let base := base ++ (if vu.1.isEmpty then [] else ' ' :: vu.1)
  let base := base ++ noOptSuffix f
  let usagePart := vu.2
    ++ (if defaultIsZeroValue f then []
        else if f.typ = chars "string" then
          chars " (default " ++ goQuote f.defValue ++ chars ")"
        else chars " (default " ++ f.defValue ++ chars ")")
    ++ (if f.deprecated.isEmpty then []
        else chars " (DEPRECATED: " ++ f.deprecated ++ chars ")")
  (base, usagePart)

/-- The alignment width: the length of the longest name part plus one (the
`\x00` marker byte is counted in the source's `len(line)`). -/
def maxNameLen (parts : List (Str × Str)) : Nat :=
  parts.foldl (fun m p => max m (p.1.length + 1)) 0

/-- One rendered line: `fmt.Fprintln(buf, line[:sidx], spacing, wrap(...))`
joins its operands with single spaces and ends the line. -/
def renderLine (maxlen cols : Nat) (p : Str × Str) : Str :=
  p.1 ++ ' ' :: repChar (maxlen - p.1.length) ' '
    ++ ' ' :: wrap (maxlen + 2) cols p.2 ++ ['\n']

/-- pflag `FlagSet.FlagUsagesWrapped(cols)`: every visible flag on a line,
name parts aligned, usage text wrapped to `cols` columns. -/
def flagUsages (s : FlagSetM) (cols : Nat) : Str :=
  let parts := (visibleSorted s).map flagLine
  (parts.map (renderLine (maxNameLen parts) cols)).flatten

/-- pflag `FlagSet.AddFlagSet`: visit the source set in sorted order and
add every flag whose name is not yet present. -/
def addFlagSet (dst src : FlagSetM) : FlagSetM :=
  ⟨(sortByName src.flags).foldl
    (fun acc f => if acc.any (fun g => g.name = f.name) then acc
      else acc ++ [f]) dst.flags⟩

/-- The flag `FlagSet.Int(name, 0, usage)` registers: an int flag with
default `0`. -/
def intFlag (nm usage : Str) : PFlag :=
  { name := nm, shorthand := [], typ := chars "int", usage := usage,
    defValue := chars "0", noOptDefVal := [], deprecated := [],
    shorthandDeprecated := [], hidden := false }

/-- pflag `FlagSet.Int(name, 0, usage)`: registers an int flag with default
`0` (in the source a clashing name would panic; never hit here). -/
def addIntFlag (s : FlagSetM) (nm usage : Str) : FlagSetM :=
  ⟨s.flags ++ [intFlag nm usage]⟩

/-- pflag `FlagSet.BoolP(name, shorthand, false, usage)`: bool flags carry
`NoOptDefVal = "true"` and default `"false"`. -/
def boolPFlag (nm sh usage : String) : PFlag :=
  { name := chars nm, shorthand := chars sh, typ := chars "bool",
    usage := chars usage, defValue := chars "false",
    noOptDefVal := chars "true", deprecated := [],
    shorthandDeprecated := [], hidden := false }

/-!
## NamedFlagSets (options.go)

`NamedFlagSets` keeps an ordered list of group names and a map from name
to flag collection.  The map stores pointers; pointer identity is modelled
by an allocation index recorded next to each collection (`FlagSet`
allocates collections one after the other, so the index at creation time
identifies the instance).
-/

/-- `NamedFlagSets`: `order` is the ordered name list, `sets` associates
each name with its allocation index and its flag collection. -/
structure NamedFlagSets where
  order : List String
  sets : List (String × Nat × FlagSetM)
deriving DecidableEq

def emptyNFS : NamedFlagSets := ⟨[], []⟩

/-- Map lookup `nfs.FlagSets[name]` (allocation index and collection). -/
def nfsFind (s : NamedFlagSets) (n : String) : Option (Nat × FlagSetM) :=
  (s.sets.find? (fun e => e.1 == n)).map (fun e => e.2)

/-- `NamedFlagSets.FlagSet(name)`: return the collection registered under
`name`, creating an empty one and appending `name` to `Order` if absent;
the returned `Nat` is the allocation index of the returned collection
(the pointer the source returns). -/
def flagSetOp (s : NamedFlagSets) (n : String) : Nat × NamedFlagSets :=
  match nfsFind s n with
  | some (ident, _) => (ident, s)
  | none =>
    (s.sets.length,
      ⟨s.order ++ [n], s.sets ++ [(n, s.sets.length, emptyFS)]⟩)

/-- Apply a sequence of `FlagSet` references, keeping only the state. -/
def applySeq (s : NamedFlagSets) : List String → NamedFlagSets
  | [] => s
  | n :: rest => applySeq (flagSetOp s n).2 rest

/-- The allocation index returned by each call in a sequence of `FlagSet`
references. -/
def callIds (s : NamedFlagSets) : List String → List Nat
  | [] => []
  | n :: rest =>
    let p := flagSetOp s n
    p.1 :: callIds p.2 rest

/-- Spec side: the distinct referenced names, each exactly once, in order
of first reference. -/
def firstRefsFrom (acc : List String) : List String → List String
  | [] => acc
  | n :: rest => firstRefsFrom (if n ∈ acc then acc else acc ++ [n]) rest

def firstRefs (names : List String) : List String := firstRefsFrom [] names

/-- The collection `PrintSections` reads for a group name (in the source a
name in `Order` is always present in the map). -/
def lookupFS (s : NamedFlagSets) (n : String) : FlagSetM :=
  ((nfsFind s n).map (fun e => e.2)).getD emptyFS

/-- The section header text `strings.ToUpper(name[:1]+name[:1])` of
`PrintSections`. -/
def hdrOf (name : String) : Str :=
  toUpperL ((chars name).take 1 ++ (chars name).take 1)

/-- One group's section as `PrintSections` writes it: skip a group without
flags; otherwise render header plus flag usages, and for `cols > 24` add
the filler flag, cut at its first occurrence and drop the trailing line. -/
def renderGroup (fss : NamedFlagSets) (cols : Nat) (name : String) : Str :=
  let fs := lookupFS fss name
  if fs.flags.isEmpty then []
  else
    let wideA := addFlagSet emptyFS fs
    let filler := repChar (cols - 24) 'z'
    let wide := if 24 < cols then addIntFlag wideA filler filler else wideA
    let buf := '\n' :: (hdrOf name ++ chars " flags:\n" ++ flagUsages wide cols)
    if 24 < cols then
      match indexOfSub? buf filler with
      | some i => joinNl ((splitNl (buf.take i)).dropLast) ++ ['\n']
      | none => []
    else buf

/-- `PrintSections(w, fss, cols)`: the text written to `w`. -/
def printSections (fss : NamedFlagSets) (cols : Nat) : Str :=
  (fss.order.map (renderGroup fss cols)).flatten

/-!
## Spec-side renderings

Definitions that follow the specification's words, to be compared with the
source-derived `printSections`.
-/

/-- Written from the spec: one aligned line per visible flag with the
usage text emitted verbatim (no wrap primitive involved). -/
def renderLineU (maxlen : Nat) (p : Str × Str) : Str :=
  p.1 ++ ' ' :: repChar (maxlen - p.1.length) ' ' ++ ' ' :: p.2 ++ ['\n']

/-- Written from the spec: the group's flag-usage text with every usage
string emitted verbatim — the wrap primitive is never applied, so no
wrap-induced line breaks exist. -/
def unwrappedFlagUsages (s : FlagSetM) : Str :=
  let parts := (visibleSorted s).map flagLine
  (parts.map (renderLineU (maxNameLen parts))).flatten

/-- Written from the spec: the unwrapped concatenation, in `Order` order,
of each non-empty group's header and flag-usage text, skipping groups
without flags; no filler or truncation is applied. -/
def unwrappedSections (fss : NamedFlagSets) : Str :=
  (fss.order.map (fun name =>
    let fs := lookupFS fss name
    if fs.flags.isEmpty then []
    else '\n' :: (hdrOf name ++ chars " flags:\n" ++ unwrappedFlagUsages fs))).flatten

/-- Written from the spec (as amended): one aligned line per visible
flag; the usage text is kept on its line unwrapped, the only
transformation being `maxlen + 2` alignment spaces inserted after each
newline already embedded in the usage string. -/
def renderLineInd (maxlen : Nat) (p : Str × Str) : Str :=
  p.1 ++ ' ' :: repChar (maxlen - p.1.length) ' '
    ++ ' ' :: replaceNl p.2 (repChar (maxlen + 2) ' ') ++ ['\n']

/-- Written from the spec (as amended): the group's flag-usage text with
no wrap-induced line breaks, embedded newlines re-indented. -/
def indentedFlagUsages (s : FlagSetM) : Str :=
  let parts := (visibleSorted s).map flagLine
  (parts.map (renderLineInd (maxNameLen parts))).flatten

/-- Written from the spec (as amended): the concatenation, in `Order`
order, of each non-empty group's header and flag-usage text with embedded
newlines re-indented, skipping groups without flags; no filler or
truncation is applied. -/
def indentedSections (fss : NamedFlagSets) : Str :=
  (fss.order.map (fun name =>
    let fs := lookupFS fss name
    if fs.flags.isEmpty then []
    else '\n' :: (hdrOf name ++ chars " flags:\n"
      ++ indentedFlagUsages fs))).flatten

/-- Written from the spec (as amended): the header is the group name's
first letter doubled and capitalized, followed by `" flags:"`. -/
def doubledHeader (name : String) : Str :=
  toUpperL ((chars name).take 1) ++ toUpperL ((chars name).take 1)
    ++ chars " flags:"

/-- Longest line of a rendered text (lines as split at newlines). -/
def maxLineLen (s : Str) : Nat :=
  ((splitNl s).map List.length).foldl max 0

/-!
## Options contract and the option-rules step (applyOptionRules)

The options object is modelled by its observable behaviour: the optional
completion capability (`none` when the object does not implement
`CompletableOptions`), the validation error list, and the optional
string-dump capability.  The trace records which lifecycle steps ran.
-/

/-- Observable behaviour of a `CliOptions` value. -/
structure OptionsModel where
  /-- `none`: no `CompletableOptions` capability; `some none`: `Complete()`
  succeeds; `some (some e)`: `Complete()` fails with `e`. -/
  completeResult : Option (Option Str)
  /-- The list returned by `Validate()`. -/
  validateErrs : List Str
  /-- `none`: no `PrintableOptions` capability; `some s`: `String() = s`. -/
  printResult : Option Str

/-- The lifecycle steps `applyOptionRules` may perform, in trace order. -/
inductive LifeStep where
  | completeCalled
  | validateCalled
  | printCalled
deriving DecidableEq

/-- Message of `errors.NewAggregate(errs)` (the marmotedu/kubernetes
aggregate): one error's message directly; otherwise the distinct messages
in first-occurrence order, comma-joined, bracketed when more than one
distinct message remains. -/
def aggregateMsg (errs : List Str) : Str :=
  match errs with
  | [m] => m
  | _ =>
    let msgs := errs.foldl (fun acc m => if m ∈ acc then acc else acc ++ [m]) []
    match msgs with
    | [m] => m
    | ms => '[' :: joinComma ms ++ [']']
where
  joinComma : List Str → Str
    | [] => []
    | [a] => a
    | a :: b :: rest => a ++ chars ", " ++ joinComma (b :: rest)

/-- The tail of `applyOptionRules` after the completion step: always call
`Validate()`; abort with the aggregated failure when it returns errors;
otherwise log the optional dump. -/
def afterComplete (o : OptionsModel) (t : List LifeStep) :
    Option Str × List LifeStep :=
  if o.validateErrs.isEmpty then
    match o.printResult with
    | some _ => (none, t ++ [LifeStep.validateCalled, LifeStep.printCalled])
    | none => (none, t ++ [LifeStep.validateCalled])
  else (some (aggregateMsg o.validateErrs), t ++ [LifeStep.validateCalled])

/-- `App.applyOptionRules`: probe the completion capability and abort on
failure, then validate, then log the optional dump; the result is the
returned error (if any) and the trace of performed steps. -/
def applyOptionRules (o : OptionsModel) : Option Str × List LifeStep :=
  match o.completeResult with
  | some (some e) => (some e, [LifeStep.completeCalled])
  | some none => afterComplete o [LifeStep.completeCalled]
  | none => afterComplete o []

/-!
## App construction (NewApp, buildCommand) and Run
-/

/-- The global flags `buildCommand` can register into the `"global"` flag
group. -/
inductive GlobalReg where
  | version
  | config
  | help
deriving DecidableEq

/-- Modelled from the spec: `AddFlags` (the version-flag registration of
§4.6/§6, not under `src/`) registers the version flag, and
`addConfigFlag` (the config-file flag registration, not under `src/`)
registers the config-file flag; `AddGlobalFlags` (util.go) registers the
help flag.  `buildCommand` (part_002) calls `AddFlags` under
`if a.noVersion`, `addConfigFlag` under `if !a.noConfig`, and
`AddGlobalFlags` unconditionally, in that order. -/
def buildGlobalRegs (noVersion noConfig : Bool) : List GlobalReg :=
  (if noVersion then [GlobalReg.version] else [])
    ++ (if !noConfig then [GlobalReg.config] else [])
    ++ [GlobalReg.help]

/-- The `App` structure (part_002). -/
structure AppM where
  basename : String
  name : String
  description : String
  options : Option OptionsModel
  runFunc : Option (String → Option Str)
  silence : Bool
  noVersion : Bool
  noConfig : Bool
  commands : List String
  /-- The positional-argument validator (`args`), taking the command path
  and the argument list. -/
  argsValidator : Option (Str → List Str → Option Str)
  /-- The registrations `buildCommand` performed into the `"global"`
  group. -/
  globalRegs : List GlobalReg
  built : Bool

/-- An `Option` is a mutator over the `App` value. -/
abbrev OptionM := AppM → AppM

def WithRunFunc (f : String → Option Str) : OptionM :=
  fun a => { a with runFunc := some f }

def WithOptions (o : OptionsModel) : OptionM :=
  fun a => { a with options := some o }

def WithDescription (d : String) : OptionM :=
  fun a => { a with description := d }

def WithSilence : OptionM := fun a => { a with silence := true }

def WithNoVersion : OptionM := fun a => { a with noVersion := true }

def WithNoConfig : OptionM := fun a => { a with noConfig := true }

def WithValidArgs (v : Str → List Str → Option Str) : OptionM :=
  fun a => { a with argsValidator := some v }

/-- The validator installed by `WithDefaultValidArgs`: reject the first
argument of non-zero length with an error naming the command path and that
argument (`%q` quoting), accept otherwise. -/
def defaultValidArgsFn (cmdPath : Str) (args : List Str) : Option Str :=
  match args.find? (fun arg => decide (0 < arg.length)) with
  | some arg =>
    some (goQuote cmdPath ++ chars " does not take any arguments, got "
      ++ goQuote arg)
  | none => none

def WithDefaultValidArgs : OptionM :=
  fun a => { a with argsValidator := some defaultValidArgsFn }

/-- `buildCommand`: constructs the root command; of the constructed state
the model records the global-flag registrations (the command-tree
plumbing delegated to cobra is out of scope). -/
def buildCommandM (a : AppM) : AppM :=
  { a with
    globalRegs := buildGlobalRegs a.noVersion a.noConfig,
    built := true }

/-- A fresh `App` value before options are applied. -/
def initApp (name basename : String) : AppM :=
  { basename := basename, name := name, description := "",
    options := none, runFunc := none, silence := false,
    noVersion := false, noConfig := false, commands := [],
    argsValidator := none, globalRegs := [], built := false }

/-- `NewApp(name, basename, opts...)`: apply every option in order to the
fresh value, then build the command. -/
def NewApp (name basename : String) (opts : List OptionM) : AppM :=
  buildCommandM (opts.foldl (fun a o => o a) (initApp name basename))

/-!
## Run (part_002)

`Run` executes the root command; on error it prints via
`fmt.Printf("%v %v\n", color.RedString("Error:", err))` — a format string
with two verbs but a single operand, whose operand is itself a `Sprintf`
with a verb-free format and an extra operand — and exits with status 1.
The printed text is reconstructed from Go's `fmt` rules: the extra operand
renders as `%!(EXTRA <type>=<value>)` and the missing operand as
`%!v(MISSING)`.  `fmt.Printf` writes to standard output.
-/

/-- An error value as `cmd.Execute()` returns it: its dynamic type name
(as `fmt` prints it) and its message. -/
structure GoErr where
  typeName : Str
  msg : Str

/-- Outcome of `Run`: text written to each stream and the process exit
status. -/
structure RunOut where
  stdout : Str
  stderr : Str
  exitCode : Nat
deriving DecidableEq

/-- `fmt.Sprintf("Error:", err)`: no verbs, one extra operand. -/
def errorExtra (e : GoErr) : Str :=
  chars "Error:" ++ chars "%!(EXTRA " ++ e.typeName ++ '=' :: e.msg ++ [')']

/-- `color.RedString` wraps its formatted text in red escape codes unless
colour is disabled (not a terminal). -/
def redString (s : Str) (useColor : Bool) : Str :=
  if useColor then chars "\x1b[31m" ++ s ++ chars "\x1b[0m" else s

/-- `App.Run()`: on an execution error, print the formatted line to
standard output and exit 1; on success return (the process then exits 0).
-/
def runApp (execResult : Option GoErr) (useColor : Bool) : RunOut :=
  match execResult with
  | none => { stdout := [], stderr := [], exitCode := 0 }
  | some e =>
    { stdout := redString (errorExtra e) useColor
        ++ chars " %!v(MISSING)" ++ ['\n'],
      stderr := [], exitCode := 1 }

/-!
## Helper lemmas
-/

theorem infix_app_left {α : Type _} (x : List α) {l r : List α}
    (h : l <:+: r) : l <:+: x ++ r := by
  obtain ⟨s, t, rfl⟩ := h
  exact ⟨x ++ s, t, by simp⟩

theorem infix_app_right {α : Type _} {l r : List α} (x : List α)
    (h : l <:+: r) : l <:+: r ++ x := by
  obtain ⟨s, t, rfl⟩ := h
  exact ⟨s, t ++ x, by simp⟩

theorem infix_of_mem_flatten {α : Type _} {a : List α} {L : List (List α)}
    (h : a ∈ L) : a <:+: L.flatten := by
  induction L with
  | nil => cases h
  | cons x xs ih =>
    rcases List.mem_cons.mp h with rfl | hmem
    · exact infix_app_right _ ⟨[], [], by simp⟩
    · exact infix_app_left x (ih hmem)

/-!
## C9: options are applied in order, last write wins
-/

/-- Claim C9: `NewApp` applies the supplied `Option` mutators in the order
given, so of two options setting the description the later one wins. -/
theorem newApp_applies_options_in_order (n b : String) (opts : List OptionM)
    (d1 d2 : String) :
    (NewApp n b (opts ++ [WithDescription d1, WithDescription d2])).description
      = d2 := by
  simp [NewApp, List.foldl_append, WithDescription, buildCommandM]

/-!
## C1: which global flags buildCommand registers
-/

/-- Claim C1 (evaluation at the failing input): the version flag is
registered exactly when `noVersion` is `true` — the opposite of the claim
(and of `WithNoVersion`'s documentation) — while the config-file flag is
registered exactly when `noConfig` is `false` and the help flag always. -/
theorem buildCommand_version_flag_inverted :
    GlobalReg.version ∉ (NewApp "app" "app" []).globalRegs
    ∧ GlobalReg.version ∈ (NewApp "app" "app" [WithNoVersion]).globalRegs
    ∧ GlobalReg.config ∈ (NewApp "app" "app" []).globalRegs
    ∧ GlobalReg.config ∉ (NewApp "app" "app" [WithNoConfig]).globalRegs
    ∧ GlobalReg.help ∈ (NewApp "app" "app" []).globalRegs
    ∧ GlobalReg.help ∈
        (NewApp "app" "app" [WithNoVersion, WithNoConfig]).globalRegs := by
  refine ⟨?_, ?_, ?_, ?_, ?_, ?_⟩ <;>
    simp [NewApp, buildCommandM, buildGlobalRegs, initApp, WithNoVersion,
      WithNoConfig]

/-!
## C2: what Run prints and with which status it exits
-/

/-- Claim C2 (evaluation at the failing input): on an execution error,
`Run` writes nothing to standard error (the text goes to standard output,
mangled by the mismatched format verbs) and exits 1; on success it exits 0
without output.  The claimed line `Error: <message>` on standard error
does not occur. -/
theorem run_error_output_not_on_stderr :
    (∀ (e : GoErr) (c : Bool),
      (runApp (some e) c).stderr = [] ∧ (runApp (some e) c).exitCode = 1)
    ∧ (∀ c : Bool, runApp none c = ⟨[], [], 0⟩)
    ∧ (runApp (some ⟨chars "*errors.errorString", chars "boom"⟩) false).stdout
        = chars "Error:%!(EXTRA *errors.errorString=boom) %!v(MISSING)\n" := by
  refine ⟨fun e c => ⟨rfl, rfl⟩, fun c => rfl, ?_⟩
  decide

/-!
## C7: a completion failure aborts before validation
-/

/-- Claim C7: when the optional completion capability fails,
`applyOptionRules` returns that failure and `Validate()` is never
invoked. -/
theorem complete_failure_skips_validate (o : OptionsModel) (e : Str)
    (h : o.completeResult = some (some e)) :
    (applyOptionRules o).1 = some e
    ∧ LifeStep.validateCalled ∉ (applyOptionRules o).2 := by
  simp [applyOptionRules, h]

theorem complete_failure_skips_validate_witness :
    (applyOptionRules ⟨some (some (chars "boom")), [chars "verr"],
        some (chars "dump")⟩).1 = some (chars "boom")
    ∧ LifeStep.validateCalled ∉ (applyOptionRules ⟨some (some (chars "boom")),
        [chars "verr"], some (chars "dump")⟩).2 :=
  complete_failure_skips_validate _ _ rfl

/-!
## C8: validation errors aggregate into one failure
-/

theorem mem_dedupFold {x : Str} :
    ∀ (l : List Str) (acc : List Str), x ∈ acc ∨ x ∈ l →
      x ∈ l.foldl (fun acc m => if m ∈ acc then acc else acc ++ [m]) acc := by
  intro l
  induction l with
  | nil => intro acc h; simpa using h
  | cons m rest ih =>
    intro acc h
    simp only [List.foldl_cons]
    apply ih
    rcases h with hacc | hml
    · left
      split
      · exact hacc
      · exact List.mem_append_left _ hacc
    · rcases List.mem_cons.mp hml with rfl | hrest
      · left
        split
        · assumption
        · simp
      · right; exact hrest

theorem mem_infix_joinComma {e : Str} :
    ∀ ms : List Str, e ∈ ms → e <:+: aggregateMsg.joinComma ms := by
  intro ms
  induction ms with
  | nil => intro h; cases h
  | cons a rest ih =>
    intro h
    rcases List.mem_cons.mp h with rfl | hmem
    · cases rest with
      | nil => exact List.infix_rfl
      | cons b bs =>
        exact infix_app_right _ (infix_app_right _ List.infix_rfl)
    · cases rest with
      | nil => cases hmem
      | cons b bs =>
        simpa [aggregateMsg.joinComma, List.append_assoc] using
          infix_app_left (a ++ chars ", ") (ih hmem)

theorem mem_infix_aggregateMsg {e : Str} :
    ∀ errs : List Str, e ∈ errs → e <:+: aggregateMsg errs := by
  intro errs h
  match errs, h with
  | [m], h =>
    rcases List.mem_singleton.mp h with rfl
    exact List.infix_rfl
  | a :: b :: rest, h =>
    have hmem : e ∈ (a :: b :: rest).foldl
        (fun acc m => if m ∈ acc then acc else acc ++ [m]) [] :=
      mem_dedupFold _ [] (Or.inr h)
    show e <:+: (match (a :: b :: rest).foldl
        (fun acc m => if m ∈ acc then acc else acc ++ [m]) [] with
      | [m] => m
      | ms => '[' :: aggregateMsg.joinComma ms ++ [']'])
    rcases hd : (a :: b :: rest).foldl
        (fun acc m => if m ∈ acc then acc else acc ++ [m]) [] with
      _ | ⟨m1, _ | ⟨m2, ms'⟩⟩
    · rw [hd] at hmem; cases hmem
    · rw [hd] at hmem
      rcases List.mem_singleton.mp hmem with rfl
      exact List.infix_rfl
    · rw [hd] at hmem
      have : e <:+: aggregateMsg.joinComma (m1 :: m2 :: ms') :=
        mem_infix_joinComma _ hmem
      have h2 : e <:+: ['['] ++ (aggregateMsg.joinComma (m1 :: m2 :: ms')
          ++ [']']) := infix_app_left _ (infix_app_right _ this)
      simpa using h2

/-- Claim C8: when `Validate()` returns a non-empty error list (and the
completion step did not already abort), `applyOptionRules` returns exactly
one combined failure whose message contains every returned error's text,
and the optional string dump is not performed. -/
theorem afterComplete_of_errors (o : OptionsModel) (t : List LifeStep)
    (hv : o.validateErrs ≠ []) :
    afterComplete o t
      = (some (aggregateMsg o.validateErrs), t ++ [LifeStep.validateCalled]) := by
  unfold afterComplete
  rw [if_neg]
  simpa using hv

theorem validate_errors_aggregate (o : OptionsModel)
    (hc : ∀ e, o.completeResult ≠ some (some e))
    (hv : o.validateErrs ≠ []) :
    (applyOptionRules o).1 = some (aggregateMsg o.validateErrs)
    ∧ (∀ e ∈ o.validateErrs, e <:+: aggregateMsg o.validateErrs)
    ∧ LifeStep.printCalled ∉ (applyOptionRules o).2 := by
  have hmem : ∀ e ∈ o.validateErrs, e <:+: aggregateMsg o.validateErrs :=
    fun e he => mem_infix_aggregateMsg _ he
  rcases h : o.completeResult with _ | ⟨_ | e⟩
  · have : applyOptionRules o = afterComplete o [] := by
      unfold applyOptionRules
      rw [h]
    rw [this, afterComplete_of_errors o _ hv]
    exact ⟨rfl, hmem, by simp⟩
  · have : applyOptionRules o = afterComplete o [LifeStep.completeCalled] := by
      unfold applyOptionRules
      rw [h]
    rw [this, afterComplete_of_errors o _ hv]
    exact ⟨rfl, hmem, by simp⟩
  · exact absurd h (hc e)

theorem validate_errors_aggregate_witness :
    (applyOptionRules ⟨some none, [chars "errA", chars "errB"],
        some (chars "dump")⟩).1
      = some (aggregateMsg [chars "errA", chars "errB"])
    ∧ (∀ e ∈ [chars "errA", chars "errB"],
        e <:+: aggregateMsg [chars "errA", chars "errB"])
    ∧ LifeStep.printCalled ∉ (applyOptionRules ⟨some none,
        [chars "errA", chars "errB"], some (chars "dump")⟩).2 :=
  validate_errors_aggregate _ (by intro e h; cases h) (by decide)

/-!
## C10: the default positional-argument validator
-/

/-- Claim C10: the validator installed by `WithDefaultValidArgs` rejects
exactly the argument lists containing a non-empty argument (a list of
empty strings is accepted), and its error message names the command path
and the first offending argument. -/
theorem default_valid_args_spec :
    (∀ n b : String,
      (NewApp n b [WithDefaultValidArgs]).argsValidator
        = some defaultValidArgsFn)
    ∧ (∀ (path : Str) (args : List Str),
        defaultValidArgsFn path args = none ↔ ∀ a ∈ args, a = [])
    ∧ (∀ (path : Str) (args : List Str) (arg : Str),
        args.find? (fun a => decide (0 < a.length)) = some arg →
        ∃ m, defaultValidArgsFn path args = some m
          ∧ goQuote path <:+: m ∧ goQuote arg <:+: m) := by
  refine ⟨fun n b => rfl, ?_, ?_⟩
  · intro path args
    unfold defaultValidArgsFn
    rcases h : args.find? (fun a => decide (0 < a.length)) with _ | arg
    · rw [h]
      refine ⟨fun _ a ha => ?_, fun _ => rfl⟩
      have := List.find?_eq_none.mp h a ha
      simp only [decide_eq_true_eq, Nat.not_lt, Nat.le_zero] at this
      exact List.length_eq_zero.mp this
    · rw [h]
      refine ⟨fun heq => Option.noConfusion heq, fun hall => ?_⟩
      have harg := List.find?_some h
      have hmem := List.mem_of_find?_eq_some h
      have := hall arg hmem
      subst this
      simp at harg
  · intro path args arg h
    refine ⟨_, by unfold defaultValidArgsFn; rw [h], ?_, ?_⟩
    · exact infix_app_right _ (infix_app_right _ List.infix_rfl)
    · exact infix_app_left _ List.infix_rfl

theorem default_valid_args_spec_witness :
    defaultValidArgsFn (chars "app ping") [[], []] = none
    ∧ ∃ m, defaultValidArgsFn (chars "app ping") [[], chars "extra"] = some m
        ∧ goQuote (chars "app ping") <:+: m
        ∧ goQuote (chars "extra") <:+: m :=
  ⟨(default_valid_args_spec.2.1 _ _).mpr (by decide),
    default_valid_args_spec.2.2 _ _ _ (by decide)⟩

/-!
## C4: FlagSet reference order and instance identity
-/

/-- Structural invariant of a reachable `NamedFlagSets` state: `Order`
mirrors the map's keys in insertion order. -/
def InvNFS (s : NamedFlagSets) : Prop :=
  s.order = s.sets.map (fun e => e.1)

theorem inv_emptyNFS : InvNFS emptyNFS := rfl

theorem inv_flagSetOp (s : NamedFlagSets) (n : String) (h : InvNFS s) :
    InvNFS (flagSetOp s n).2 := by
  have h' : s.order = s.sets.map (fun e => e.1) := h
  unfold flagSetOp
  rcases nfsFind s n with _ | p
  · show InvNFS ⟨s.order ++ [n], s.sets ++ [(n, s.sets.length, emptyFS)]⟩
    unfold InvNFS
    simp [h']
  · exact h

theorem nfsFind_none_iff (s : NamedFlagSets) (n : String) (h : InvNFS s) :
    nfsFind s n = none ↔ n ∉ s.order := by
  unfold nfsFind
  rw [h]
  simp only [Option.map_eq_none', List.find?_eq_none, beq_iff_eq,
    List.mem_map]
  constructor
  · rintro hall ⟨e, he, rfl⟩
    exact hall e he rfl
  · intro hnmem e he heq
    exact hnmem ⟨e, he, heq⟩

theorem applySeq_order (names : List String) :
    ∀ s : NamedFlagSets, InvNFS s →
      (applySeq s names).order = firstRefsFrom s.order names := by
  induction names with
  | nil => intro s _; rfl
  | cons n rest ih =>
    intro s hs
    show (applySeq (flagSetOp s n).2 rest).order
      = firstRefsFrom (if n ∈ s.order then s.order else s.order ++ [n]) rest
    rcases hfind : nfsFind s n with _ | p
    · have hnm : n ∉ s.order := (nfsFind_none_iff s n hs).mp hfind
      have hop : (flagSetOp s n).2
          = ⟨s.order ++ [n], s.sets ++ [(n, s.sets.length, emptyFS)]⟩ := by
        unfold flagSetOp
        rw [hfind]
      rw [hop, if_neg hnm]
      exact ih _ (by rw [← hop]; exact inv_flagSetOp s n hs)
    · have hmem : n ∈ s.order := by
        by_contra hnm
        rw [(nfsFind_none_iff s n hs).mpr hnm] at hfind
        exact Option.noConfusion hfind
      have hop : (flagSetOp s n).2 = s := by
        unfold flagSetOp
        rw [hfind]
      rw [hop, if_pos hmem]
      exact ih s hs

theorem firstRefsFrom_nodup (names : List String) :
    ∀ acc : List String, acc.Nodup → (firstRefsFrom acc names).Nodup := by
  induction names with
  | nil => intro acc h; exact h
  | cons n rest ih =>
    intro acc h
    show (firstRefsFrom (if n ∈ acc then acc else acc ++ [n]) rest).Nodup
    split
    · exact ih acc h
    · exact ih _ (by simp [List.nodup_append, h, *])

theorem nfsFind_stable (s : NamedFlagSets) (m n : String)
    (x : Nat × FlagSetM) (h : nfsFind s n = some x) :
    nfsFind (flagSetOp s m).2 n = some x := by
  unfold flagSetOp
  rcases hm : nfsFind s m with _ | p
  · show nfsFind ⟨s.order ++ [m], s.sets ++ [(m, s.sets.length, emptyFS)]⟩ n
      = some x
    unfold nfsFind at h ⊢
    rcases he : s.sets.find? (fun e => e.1 == n) with _ | e
    · rw [he] at h
      exact Option.noConfusion h
    · rw [List.find?_append, he]
      rw [he] at h
      exact h
  · exact h

theorem nfsFind_stable_seq (names : List String) :
    ∀ (s : NamedFlagSets) (n : String) (x : Nat × FlagSetM),
      nfsFind s n = some x → nfsFind (applySeq s names) n = some x := by
  induction names with
  | nil => intro s n x h; exact h
  | cons m rest ih =>
    intro s n x h
    exact ih _ n x (nfsFind_stable s m n x h)

theorem callIds_final (names : List String) :
    ∀ (s : NamedFlagSets) (i : Nat), i < names.length →
      ∃ fsm, nfsFind (applySeq s names) (names.getD i "")
        = some ((callIds s names).getD i 0, fsm) := by
  induction names with
  | nil => intro s i hi; cases hi
  | cons n rest ih =>
    intro s i hi
    match i with
    | 0 =>
      have hstep : ∃ fsm, nfsFind (flagSetOp s n).2 n
          = some ((flagSetOp s n).1, fsm) := by
        unfold flagSetOp
        rcases hfind : nfsFind s n with _ | p
        · refine ⟨emptyFS, ?_⟩
          show nfsFind ⟨s.order ++ [n], s.sets ++ [(n, s.sets.length, emptyFS)]⟩ n
            = some (s.sets.length, emptyFS)
          unfold nfsFind at hfind ⊢
          rcases he : s.sets.find? (fun e => e.1 == n) with _ | e
          · rw [List.find?_append, he]
            simp
          · rw [he] at hfind
            exact Option.noConfusion hfind
        · exact ⟨p.2, by simpa using hfind⟩
      obtain ⟨fsm, hfsm⟩ := hstep
      exact ⟨fsm, nfsFind_stable_seq rest _ n _ hfsm⟩
    | Nat.succ j =>
      have hj : j < rest.length := by
        simp only [List.length_cons] at hi
        omega
      have hrec := ih (flagSetOp s n).2 j hj
      simpa [applySeq, callIds, List.getD_cons_succ] using hrec

/-- Claim C4: starting from a zero-value `NamedFlagSets`, any sequence of
`FlagSet` references yields an `Order` holding each distinct name exactly
once in first-reference order, without duplicates, and every call with a
given name returns the collection instance (allocation index) the first
call created. -/
theorem flagSet_order_and_identity (names : List String) :
    (applySeq emptyNFS names).order = firstRefs names
    ∧ (applySeq emptyNFS names).order.Nodup
    ∧ ∀ i j : Nat, i < names.length → j < names.length →
        names.getD i "" = names.getD j "" →
        (callIds emptyNFS names).getD i 0 = (callIds emptyNFS names).getD j 0 := by
  have horder : (applySeq emptyNFS names).order = firstRefs names :=
    applySeq_order names emptyNFS inv_emptyNFS
  refine ⟨horder, ?_, ?_⟩
  · rw [horder]
    exact firstRefsFrom_nodup names [] List.nodup_nil
  · intro i j hi hj heq
    obtain ⟨fi, hfi⟩ := callIds_final names emptyNFS i hi
    obtain ⟨fj, hfj⟩ := callIds_final names emptyNFS j hj
    rw [heq, hfj] at hfi
    exact (Prod.mk.injEq _ _ _ _ ▸ Option.some.injEq _ _ ▸ hfi :
      _ ∧ _).1.symm

theorem flagSet_order_and_identity_witness :
    (applySeq emptyNFS ["global", "misc", "global"]).order = ["global", "misc"]
    ∧ (applySeq emptyNFS ["global", "misc", "global"]).order.Nodup
    ∧ (callIds emptyNFS ["global", "misc", "global"]).getD 0 0
        = (callIds emptyNFS ["global", "misc", "global"]).getD 2 0 :=
  ⟨((flagSet_order_and_identity ["global", "misc", "global"]).1).trans (by decide),
    (flagSet_order_and_identity ["global", "misc", "global"]).2.1,
    (flagSet_order_and_identity ["global", "misc", "global"]).2.2 0 2
      (by decide) (by decide) (by decide)⟩

/-!
## Order lemmas for the name comparison
-/

theorem leStr_total : ∀ a b : Str, leStr a b = true ∨ leStr b a = true := by
  intro a
  induction a with
  | nil => intro b; exact Or.inl rfl
  | cons x xs ih =>
    intro b
    cases b with
    | nil => exact Or.inr rfl
    | cons y ys =>
      by_cases h : x.toNat = y.toNat
      · rcases ih ys with hl | hr
        · left
          simp only [leStr, if_pos h]
          exact hl
        · right
          simp only [leStr, if_pos h.symm]
          exact hr
      · have h' : ¬ y.toNat = x.toNat := fun e => h e.symm
        rcases Nat.lt_or_ge x.toNat y.toNat with hlt | hge
        · left
          simp only [leStr, if_neg h]
          exact decide_eq_true hlt
        · have hgt : y.toNat < x.toNat := Nat.lt_of_le_of_ne hge h'
          right
          simp only [leStr, if_neg h']
          exact decide_eq_true hgt

theorem leStr_trans : ∀ a b c : Str,
    leStr a b = true → leStr b c = true → leStr a c = true := by
  intro a
  induction a with
  | nil => intro b c _ _; rfl
  | cons x xs ih =>
    intro b c hab hbc
    cases b with
    | nil => exact absurd hab (by simp [leStr])
    | cons y ys =>
      cases c with
      | nil => exact absurd hbc (by simp [leStr])
      | cons z zs =>
        simp only [leStr] at hab hbc ⊢
        by_cases hxy : x.toNat = y.toNat
        · rw [if_pos hxy] at hab
          by_cases hyz : y.toNat = z.toNat
          · rw [if_pos hyz] at hbc
            rw [if_pos (hxy.trans hyz)]
            exact ih ys zs hab hbc
          · rw [if_neg hyz] at hbc
            have hlt : y.toNat < z.toNat := of_decide_eq_true hbc
            have hxz : x.toNat < z.toNat := hxy ▸ hlt
            rw [if_neg (Nat.ne_of_lt hxz)]
            exact decide_eq_true hxz
        · rw [if_neg hxy] at hab
          have hltxy : x.toNat < y.toNat := of_decide_eq_true hab
          by_cases hyz : y.toNat = z.toNat
          · have hxz : x.toNat < z.toNat := hyz ▸ hltxy
            rw [if_neg (Nat.ne_of_lt hxz)]
            exact decide_eq_true hxz
          · rw [if_neg hyz] at hbc
            have hltyz : y.toNat < z.toNat := of_decide_eq_true hbc
            have hxz : x.toNat < z.toNat := Nat.lt_trans hltxy hltyz
            rw [if_neg (Nat.ne_of_lt hxz)]
            exact decide_eq_true hxz

instance : IsTotal PFlag nameLe := ⟨fun a b => leStr_total a.name b.name⟩

instance : IsTrans PFlag nameLe :=
  ⟨fun a b c => leStr_trans a.name b.name c.name⟩

theorem sortByName_perm (l : List PFlag) : List.Perm (sortByName l) l :=
  List.perm_insertionSort nameLe l

theorem sortByName_idem (l : List PFlag) :
    sortByName (sortByName l) = sortByName l :=
  List.Sorted.insertionSort_eq (List.sorted_insertionSort nameLe l)

/-!
## C5: PrintSections at zero columns is the unwrapped concatenation
-/

/-- A realisable flag collection: pflag keys flags by name, so names are
unique. -/
def nodupNames (s : FlagSetM) : Prop :=
  (s.flags.map (fun f => f.name)).Nodup

theorem foldl_dedup_eq (l : List PFlag) : ∀ acc : List PFlag,
    (((acc ++ l).map (fun f => f.name)).Nodup) →
    l.foldl (fun acc f => if acc.any (fun g => g.name = f.name) then acc
      else acc ++ [f]) acc = acc ++ l := by
  induction l with
  | nil => intro acc _; simp
  | cons f rest ih =>
    intro acc h
    have hnotmem : f.name ∉ acc.map (fun g => g.name) := by
      intro hmem
      rw [List.map_append] at h
      have hdisj := (List.nodup_append.mp h).2.2
      exact hdisj hmem (by simp)
    have hany : acc.any (fun g => decide (g.name = f.name)) = false := by
      rw [List.any_eq_false]
      intro g hg
      simp only [decide_eq_true_eq]
      intro heq
      exact hnotmem (List.mem_map.mpr ⟨g, hg, heq⟩)
    simp only [List.foldl_cons, hany, Bool.false_eq_true, if_false]
    have h' : (((acc ++ [f]) ++ rest).map (fun f => f.name)).Nodup := by
      simpa using h
    rw [ih (acc ++ [f]) h']
    simp

theorem addFlagSet_empty_flags (fs : FlagSetM) (h : nodupNames fs) :
    (addFlagSet emptyFS fs).flags = sortByName fs.flags := by
  have hnd : ((([] : List PFlag) ++ sortByName fs.flags).map
      (fun f => f.name)).Nodup := by
    simp only [List.nil_append]
    have h' : (fs.flags.map (fun f => f.name)).Nodup := h
    exact (((sortByName_perm fs.flags).map (fun f => f.name)).nodup_iff).mpr h'
  simpa [addFlagSet, emptyFS] using
    foldl_dedup_eq (sortByName fs.flags) [] hnd

theorem visibleSorted_addFlagSet (fs : FlagSetM) (h : nodupNames fs) :
    visibleSorted (addFlagSet emptyFS fs) = visibleSorted fs := by
  unfold visibleSorted
  rw [addFlagSet_empty_flags fs h]
  show (sortByName (sortByName fs.flags)).filter _
    = (sortByName fs.flags).filter _
  rw [sortByName_idem]

theorem wrap_zero (i : Nat) (s : Str) :
    wrap i 0 s = replaceNl s (repChar i ' ') := rfl

theorem renderLine_zero (maxlen : Nat) (p : Str × Str) :
    renderLine maxlen 0 p = renderLineInd maxlen p := by
  unfold renderLine renderLineInd
  rw [wrap_zero]

theorem flagUsages_zero (fs : FlagSetM) (h : nodupNames fs) :
    flagUsages (addFlagSet emptyFS fs) 0 = indentedFlagUsages fs := by
  unfold flagUsages indentedFlagUsages
  rw [visibleSorted_addFlagSet fs h]
  exact congrArg List.flatten
    (List.map_congr_left (fun p _ => renderLine_zero _ p))

theorem renderGroup_zero (fss : NamedFlagSets) (name : String)
    (h : nodupNames (lookupFS fss name)) :
    renderGroup fss 0 name =
      if (lookupFS fss name).flags.isEmpty then []
      else '\n' :: (hdrOf name ++ chars " flags:\n"
        ++ indentedFlagUsages (lookupFS fss name)) := by
  have h24 : ¬ (24 < 0) := by omega
  unfold renderGroup
  simp only [if_neg h24, flagUsages_zero _ h]

theorem lookupFS_nodup (fss : NamedFlagSets)
    (h : ∀ e ∈ fss.sets, ((e.2.2.flags.map (fun f => f.name)).Nodup))
    (name : String) : nodupNames (lookupFS fss name) := by
  unfold lookupFS nfsFind
  rcases hf : fss.sets.find? (fun e => e.1 == name) with _ | e
  · rw [hf]
    simp [nodupNames, emptyFS]
  · rw [hf]
    simpa [nodupNames] using h e (List.mem_of_find?_eq_some hf)

theorem lookupFS_cases (fss : NamedFlagSets) (name : String) :
    lookupFS fss name = emptyFS
    ∨ ∃ e ∈ fss.sets, lookupFS fss name = e.2.2 := by
  unfold lookupFS nfsFind
  rcases hf : fss.sets.find? (fun e => e.1 == name) with _ | e
  · rw [hf]
    exact Or.inl rfl
  · rw [hf]
    exact Or.inr ⟨e, List.mem_of_find?_eq_some hf, rfl⟩

theorem mem_flags_of_visibleSorted {f : PFlag} {s : FlagSetM}
    (h : f ∈ visibleSorted s) : f ∈ s.flags :=
  (sortByName_perm s.flags).mem_iff.mp (List.mem_filter.mp h).1

theorem replaceNl_no_nl (s ind : Str) (h : ∀ c ∈ s, ¬ c = '\n') :
    replaceNl s ind = s := by
  unfold replaceNl
  induction s with
  | nil => rfl
  | cons c cs ih =>
    have hc : (c == '\n') = false := by
      simpa using h c (by simp)
    simp only [List.flatMap_cons, hc, Bool.false_eq_true, if_false,
      List.singleton_append, List.cons.injEq, true_and]
    exact ih (fun x hx => h x (by simp [hx]))

theorem indentedFlagUsages_no_nl (fs : FlagSetM)
    (hnl : ∀ f ∈ fs.flags, ∀ c ∈ (flagLine f).2, ¬ c = '\n') :
    indentedFlagUsages fs = unwrappedFlagUsages fs := by
  unfold indentedFlagUsages unwrappedFlagUsages
  refine congrArg List.flatten (List.map_congr_left ?_)
  intro p hp
  obtain ⟨f, hf, rfl⟩ := List.mem_map.mp hp
  unfold renderLineInd renderLineU
  rw [replaceNl_no_nl _ _ (hnl f (mem_flags_of_visibleSorted hf))]

def c5nlFss : NamedFlagSets :=
  ⟨["global"],
    [("global", 0, ⟨[boolPFlag "verbose" "v" "first\nsecond"]⟩)]⟩

set_option maxRecDepth 65536 in
/-- Claim C5 (counterexample): a usage string holding an embedded newline
is not emitted verbatim at `columns = 0` — the wrap primitive's
width-zero branch inserts `maxlen + 2` alignment spaces after the
newline, so the output differs from the unwrapped concatenation. -/
theorem printSections_zero_verbatim_cex :
    ¬ (printSections c5nlFss 0 = unwrappedSections c5nlFss) := by
  decide

/-- Claim C5 (as amended): with `columns = 0` no filler or truncation is
applied and `PrintSections` produces, in `Order` order, each non-empty
group's header and its flag-usage lines with the usage text unwrapped —
the wrap primitive inserts no line breaks, only `maxlen + 2` alignment
spaces after newlines already embedded in a usage string — and for flags
whose rendered usage text holds no newline the output is exactly the
unwrapped concatenation. -/
theorem printSections_zero_indented (fss : NamedFlagSets)
    (h : ∀ e ∈ fss.sets, ((e.2.2.flags.map (fun f => f.name)).Nodup)) :
    printSections fss 0 = indentedSections fss
    ∧ ((∀ e ∈ fss.sets, ∀ f ∈ e.2.2.flags, ∀ c ∈ (flagLine f).2,
          ¬ c = '\n') →
        printSections fss 0 = unwrappedSections fss) := by
  have hmain : printSections fss 0 = indentedSections fss := by
    unfold printSections indentedSections
    congr 1
    apply List.map_congr_left
    intro name _
    exact renderGroup_zero fss name (lookupFS_nodup fss h name)
  refine ⟨hmain, fun hnl => hmain.trans ?_⟩
  unfold indentedSections unwrappedSections
  congr 1
  apply List.map_congr_left
  intro name _
  rcases lookupFS_cases fss name with hemp | ⟨e, he, heq⟩
  · rw [hemp]
    rfl
  · rw [heq]
    cases hie : e.2.2.flags.isEmpty with
    | true => simp [hie]
    | false =>
      simp only [hie, Bool.false_eq_true, if_false]
      rw [indentedFlagUsages_no_nl e.2.2 (hnl e he)]

def c5Fss : NamedFlagSets :=
  ⟨["global", "empty"],
    [("global", 0, ⟨[boolPFlag "help" "h" "help for app"]⟩),
      ("empty", 1, emptyFS)]⟩

theorem printSections_zero_indented_witness :
    (∀ e ∈ c5Fss.sets, ((e.2.2.flags.map (fun f => f.name)).Nodup))
    ∧ printSections c5Fss 0 = indentedSections c5Fss
    ∧ printSections c5Fss 0 = unwrappedSections c5Fss :=
  ⟨by decide, (printSections_zero_indented c5Fss (by decide)).1,
    (printSections_zero_indented c5Fss (by decide)).2 (by decide)⟩

/-!
## C3: the section header text
-/

def c3Fss : NamedFlagSets :=
  ⟨["global"], [("global", 0, ⟨[boolPFlag "help" "h" "help for app"]⟩)]⟩

/-- Claim C3 (counterexample): for group `"global"` the emitted header is
`"GG flags:"` — the first letter doubled — and the claimed `"GL flags:"`
(the first two letters) occurs nowhere in the output. -/
theorem printSections_header_cex :
    indexOfSub? (printSections c3Fss 0) (chars "GL flags:") = none
    ∧ indexOfSub? (printSections c3Fss 0) (chars "GG flags:") = some 1 := by
  exact ⟨by decide, by decide⟩

/-- Claim C3 (as amended): for every named group with at least one flag,
`PrintSections` emits a header line consisting of the capitalized first
letter of the group name doubled, followed by `" flags:"`. -/
theorem printSections_header_doubled (fss : NamedFlagSets) (name : String)
    (hmem : name ∈ fss.order)
    (hne : (lookupFS fss name).flags.isEmpty = false) :
    ('\n' :: doubledHeader name ++ ['\n']) <:+: printSections fss 0 := by
  have hgrp : renderGroup fss 0 name
      = '\n' :: (hdrOf name ++ chars " flags:\n"
        ++ flagUsages (addFlagSet emptyFS (lookupFS fss name)) 0) := by
    have h24 : ¬ (24 < 0) := by omega
    unfold renderGroup
    simp only [if_neg h24, hne, Bool.false_eq_true, if_false]
  have hhdr : hdrOf name = toUpperL ((chars name).take 1)
      ++ toUpperL ((chars name).take 1) := by
    unfold hdrOf toUpperL
    exact List.map_append _ _ _
  have hpre : ('\n' :: doubledHeader name ++ ['\n'])
      <+: renderGroup fss 0 name := by
    rw [hgrp]
    refine ⟨flagUsages (addFlagSet emptyFS (lookupFS fss name)) 0, ?_⟩
    unfold doubledHeader
    rw [hhdr]
    have : chars " flags:\n" = chars " flags:" ++ ['\n'] := by decide
    rw [this]
    simp
  have hmemmap : renderGroup fss 0 name
      ∈ fss.order.map (renderGroup fss 0) :=
    List.mem_map.mpr ⟨name, hmem, rfl⟩
  exact hpre.isInfix.trans (infix_of_mem_flatten hmemmap)

theorem printSections_header_doubled_witness :
    ('\n' :: doubledHeader "global" ++ ['\n']) <:+: printSections c3Fss 0 :=
  printSections_header_doubled c3Fss "global" (by decide) (by decide)

/-!
## C6: PrintSections at 80 columns
-/

theorem splitNl_cons_exists (s : Str) : ∃ h t, splitNl s = h :: t := by
  induction s with
  | nil => exact ⟨[], [], rfl⟩
  | cons c rest ih =>
    obtain ⟨h, t, hht⟩ := ih
    by_cases hc : c = '\n'
    · exact ⟨[], h :: t, by simp [splitNl, hht, hc]⟩
    · exact ⟨c :: h, t, by simp [splitNl, hht, hc]⟩

theorem splitNl_nl (r : Str) : splitNl ('\n' :: r) = [] :: splitNl r := by
  obtain ⟨h, t, hht⟩ := splitNl_cons_exists r
  simp [splitNl, hht]

theorem splitNl_nlfree_append (a : Str) (r : Str)
    (ha : ∀ c ∈ a, ¬ c = '\n') :
    splitNl (a ++ '\n' :: r) = a :: splitNl r := by
  induction a with
  | nil => simpa using splitNl_nl r
  | cons c a' ih =>
    have hc : ¬ c = '\n' := ha c (by simp)
    have ih' := ih (fun x hx => ha x (by simp [hx]))
    show splitNl (c :: (a' ++ '\n' :: r)) = (c :: a') :: splitNl r
    simp [splitNl, ih', hc]

theorem joinNl_header_line (A : Str) (t : List Str) :
    ('\n' :: A ++ ['\n']) <+: joinNl ([] :: A :: t) ++ ['\n'] := by
  cases t with
  | nil =>
    show _ <+: joinNl [[], A] ++ ['\n']
    simp [joinNl]
  | cons x xs =>
    refine ⟨joinNl (x :: xs) ++ ['\n'], ?_⟩
    simp [joinNl]

theorem isPrefixOf_eq_true_iff {l₁ l₂ : Str} :
    l₁.isPrefixOf l₂ = true ↔ l₁ <+: l₂ :=
  List.isPrefixOf_iff_prefix

theorem indexOfSub?_isSome (s pat : Str) (h : pat <:+: s) :
    (indexOfSub? s pat).isSome := by
  induction s with
  | nil =>
    obtain ⟨u, v, huv⟩ := h
    have : pat = [] := by
      rcases List.append_eq_nil.mp huv with ⟨h1, h2⟩
      exact (List.append_eq_nil.mp h1).2
    subst this
    simp [indexOfSub?, List.isPrefixOf]
  | cons x rest ih =>
    cases hp : pat.isPrefixOf (x :: rest) with
    | true => simp [indexOfSub?, hp]
    | false =>
      obtain ⟨u, v, huv⟩ := h
      cases u with
      | nil =>
        have : pat <+: x :: rest := ⟨v, by simpa using huv⟩
        rw [isPrefixOf_eq_true_iff.mpr this] at hp
        exact Bool.noConfusion hp
      | cons y u' =>
        have htl : pat <:+: rest := by
          refine ⟨u', v, ?_⟩
          have := huv
          simp only [List.cons_append] at this
          exact (List.cons.injEq _ _ _ _ ▸ this : _ ∧ _).2
        have := ih htl
        simp only [indexOfSub?, hp, Bool.false_eq_true, if_false]
        simpa using this

theorem indexOfSub?_some_drop (pat : Str) :
    ∀ (s : Str) (i : Nat), indexOfSub? s pat = some i → pat <+: s.drop i := by
  intro s
  induction s with
  | nil =>
    intro i h
    unfold indexOfSub? at h
    cases hp : pat.isPrefixOf ([] : Str) with
    | true =>
      rw [hp] at h
      simp only [if_true] at h
      obtain rfl : (0 : Nat) = i := Option.some.inj h
      exact isPrefixOf_eq_true_iff.mp hp
    | false =>
      rw [hp] at h
      simp at h
  | cons x rest ih =>
    intro i h
    unfold indexOfSub? at h
    cases hp : pat.isPrefixOf (x :: rest) with
    | true =>
      rw [hp] at h
      simp only [if_true] at h
      obtain rfl : (0 : Nat) = i := Option.some.inj h
      exact isPrefixOf_eq_true_iff.mp hp
    | false =>
      rw [hp] at h
      simp only [Bool.false_eq_true, if_false] at h
      obtain ⟨j, hj, rfl⟩ := Option.map_eq_some'.mp h
      exact ih j hj

theorem toUpper_ne_nl (c : Char) (h : ¬ c = '\n') : ¬ c.toUpper = '\n' := by
  show ¬ (if c.toNat ≥ 97 ∧ c.toNat ≤ 122 then Char.ofNat (c.toNat - 32)
    else c) = '\n'
  by_cases hcond : c.toNat ≥ 97 ∧ c.toNat ≤ 122
  · rw [if_pos hcond]
    have hmem : c.toNat - 32 ∈ List.range' 65 26 := by
      rw [List.mem_range'_1]
      omega
    have hall : ∀ m ∈ List.range' 65 26, ¬ Char.ofNat m = '\n' := by decide
    exact hall _ hmem
  · rw [if_neg hcond]
    exact h

set_option maxRecDepth 16384 in
theorem filler_infix_flagUsages (s : FlagSetM)
    (hmem : intFlag (repChar 56 'z') (repChar 56 'z') ∈ s.flags) :
    repChar 56 'z' <:+: flagUsages s 80 := by
  have hvs : intFlag (repChar 56 'z') (repChar 56 'z') ∈ visibleSorted s := by
    unfold visibleSorted
    refine List.mem_filter.mpr
      ⟨(sortByName_perm s.flags).mem_iff.mpr hmem, rfl⟩
  have hpart := List.mem_map_of_mem flagLine hvs
  have hline := List.mem_map_of_mem
    (renderLine (maxNameLen ((visibleSorted s).map flagLine)) 80) hpart
  have hp1 : repChar 56 'z'
      <:+: (flagLine (intFlag (repChar 56 'z') (repChar 56 'z'))).1 := by
    have hfl : (flagLine (intFlag (repChar 56 'z') (repChar 56 'z'))).1
        = chars "      --" ++ (repChar 56 'z' ++ (' ' :: chars "int")) := by
      decide
    rw [hfl]
    exact infix_app_left _ (infix_app_right _ List.infix_rfl)
  have hl : repChar 56 'z'
      <:+: renderLine (maxNameLen ((visibleSorted s).map flagLine)) 80
        (flagLine (intFlag (repChar 56 'z') (repChar 56 'z'))) := by
    unfold renderLine
    exact infix_app_right _ (infix_app_right _ (infix_app_right _ hp1))
  unfold flagUsages
  exact hl.trans (infix_of_mem_flatten hline)

theorem filler_index_ge (B us : Str) (i : Nat) (hB : B.length = 9)
    (hi : indexOfSub? (('\n' :: B ++ ['\n']) ++ us) (repChar 56 'z')
      = some i) :
    11 ≤ i := by
  by_contra hlt
  push_neg at hlt
  obtain ⟨t, ht⟩ := indexOfSub?_some_drop _ _ i hi
  have h1 : ((('\n' :: B ++ ['\n']) ++ us).drop i)[10 - i]? = some 'z' := by
    rw [← ht]
    rw [List.getElem?_append,
      if_pos (show 10 - i < (repChar 56 'z').length from by
        simp [repChar]; omega)]
    rw [repChar, List.getElem?_replicate, if_pos (by omega)]
  rw [List.getElem?_drop] at h1
  rw [show i + (10 - i) = 10 from by omega] at h1
  have h2 : (('\n' :: B ++ ['\n']) ++ us)[10]? = some '\n' := by
    have hlen : ('\n' :: B ++ ['\n']).length = 11 := by simp [hB]
    rw [List.getElem?_append, if_pos (show 10 < ('\n' :: B ++ ['\n']).length
      from by rw [hlen]; omega)]
    have hlen2 : ('\n' :: B).length = 10 := by simp [hB]
    rw [List.getElem?_append_right
      (show ('\n' :: B).length ≤ 10 from by rw [hlen2])]
    rw [hlen2]
    simp
  rw [h2] at h1
  exact absurd (Option.some.inj h1) (by decide)

theorem take_split_header_intact (B us : Str) (i : Nat) (hB : B.length = 9)
    (hBnl : ∀ x ∈ B, ¬ x = '\n') (h11 : 11 ≤ i) :
    ('\n' :: B ++ ['\n']) <+:
      joinNl ((splitNl ((('\n' :: B ++ ['\n']) ++ us).take i)).dropLast)
        ++ ['\n'] := by
  obtain ⟨k, rfl⟩ : ∃ k, i = 11 + k := ⟨i - 11, by omega⟩
  have hlen : ('\n' :: B ++ ['\n']).length = 11 := by simp [hB]
  have htake : (('\n' :: B ++ ['\n']) ++ us).take (11 + k)
      = ('\n' :: B ++ ['\n']) ++ us.take k := by
    rw [← hlen, List.take_append]
  rw [htake]
  have hassoc : ('\n' :: B ++ ['\n']) ++ us.take k
      = '\n' :: (B ++ '\n' :: us.take k) := by simp
  rw [hassoc, splitNl_nl, splitNl_nlfree_append B _ hBnl]
  obtain ⟨h0, t0, hst⟩ := splitNl_cons_exists (us.take k)
  rw [hst]
  have hdl : ([] :: B :: h0 :: t0).dropLast
      = [] :: B :: (h0 :: t0).dropLast := rfl
  rw [hdl]
  exact joinNl_header_line B ((h0 :: t0).dropLast)

theorem renderGroup80_shape (fss : NamedFlagSets) (name : String)
    (hne : (lookupFS fss name).flags.isEmpty = false) :
    renderGroup fss 80 name =
      match indexOfSub?
          ('\n' :: (hdrOf name ++ chars " flags:\n"
            ++ flagUsages (addIntFlag (addFlagSet emptyFS (lookupFS fss name))
              (repChar 56 'z') (repChar 56 'z')) 80))
          (repChar 56 'z') with
      | some i => joinNl ((splitNl (('\n' :: (hdrOf name ++ chars " flags:\n"
          ++ flagUsages (addIntFlag (addFlagSet emptyFS (lookupFS fss name))
            (repChar 56 'z') (repChar 56 'z')) 80)).take i)).dropLast)
          ++ ['\n']
      | none => [] := by
  unfold renderGroup
  simp only [hne, Bool.false_eq_true, if_false,
    if_pos (show 24 < 80 by decide)]

/-- Claim C6 (as amended): at `columns = 80` the renderer never splits a
section header across two lines — the header text, first letter doubled
and capitalized, appears on a line of its own in the output of every
rendered group. -/
theorem printSections80_header_not_split (fss : NamedFlagSets)
    (name : String) (hmem : name ∈ fss.order) (hname : name ≠ "")
    (hfc : ∀ c ∈ (chars name).take 1, ¬ c = '\n')
    (hne : (lookupFS fss name).flags.isEmpty = false) :
    ('\n' :: doubledHeader name ++ ['\n']) <:+: printSections fss 80 := by
  obtain ⟨c, cs, hcc⟩ : ∃ c cs, chars name = c :: cs := by
    cases hn : chars name with
    | nil =>
      exfalso
      apply hname
      cases name with
      | mk d =>
        have : d = [] := hn
        rw [this]
    | cons c cs => exact ⟨c, cs, rfl⟩
  have hcne : ¬ c = '\n' := hfc c (by simp [hcc])
  have hB : doubledHeader name = [c.toUpper, c.toUpper] ++ chars " flags:" := by
    unfold doubledHeader toUpperL
    rw [hcc]
    rfl
  have hBnl : ∀ x ∈ [c.toUpper, c.toUpper] ++ chars " flags:",
      ¬ x = '\n' := by
    intro x hx
    rcases List.mem_append.mp hx with hx1 | hx2
    · have : x = c.toUpper := by
        rcases List.mem_cons.mp hx1 with rfl | hx1' <;>
          simp_all
      rw [this]
      exact toUpper_ne_nl c hcne
    · have hflags : ∀ x ∈ chars " flags:", ¬ x = '\n' := by decide
      exact hflags x hx2
  have hBlen : ([c.toUpper, c.toUpper] ++ chars " flags:").length = 9 := by
    rw [List.length_append]
    rfl
  have hhdr : hdrOf name = [c.toUpper, c.toUpper] := by
    unfold hdrOf toUpperL
    rw [hcc]
    rfl
  have hbufeq : '\n' :: (hdrOf name ++ chars " flags:\n"
      ++ flagUsages (addIntFlag (addFlagSet emptyFS (lookupFS fss name))
        (repChar 56 'z') (repChar 56 'z')) 80)
      = ('\n' :: ([c.toUpper, c.toUpper] ++ chars " flags:") ++ ['\n'])
        ++ flagUsages (addIntFlag (addFlagSet emptyFS (lookupFS fss name))
          (repChar 56 'z') (repChar 56 'z')) 80 := by
    rw [hhdr, show chars " flags:\n" = chars " flags:" ++ ['\n'] from rfl]
    simp
  have hzmem : intFlag (repChar 56 'z') (repChar 56 'z')
      ∈ (addIntFlag (addFlagSet emptyFS (lookupFS fss name))
        (repChar 56 'z') (repChar 56 'z')).flags := by
    unfold addIntFlag
    simp
  have hfil_buf : repChar 56 'z' <:+:
      ('\n' :: ([c.toUpper, c.toUpper] ++ chars " flags:") ++ ['\n'])
        ++ flagUsages (addIntFlag (addFlagSet emptyFS (lookupFS fss name))
          (repChar 56 'z') (repChar 56 'z')) 80 :=
    infix_app_left _ (filler_infix_flagUsages _ hzmem)
  obtain ⟨i, hi⟩ :=
    Option.isSome_iff_exists.mp (indexOfSub?_isSome _ _ hfil_buf)
  have h11 := filler_index_ge _ _ i hBlen hi
  have hpre := take_split_header_intact _
    (flagUsages (addIntFlag (addFlagSet emptyFS (lookupFS fss name))
      (repChar 56 'z') (repChar 56 'z')) 80) i hBlen hBnl h11
  have hgrp : renderGroup fss 80 name
      = joinNl ((splitNl (((('\n' :: ([c.toUpper, c.toUpper]
          ++ chars " flags:") ++ ['\n']))
          ++ flagUsages (addIntFlag (addFlagSet emptyFS (lookupFS fss name))
            (repChar 56 'z') (repChar 56 'z')) 80).take i)).dropLast)
        ++ ['\n'] := by
    rw [renderGroup80_shape fss name hne, hbufeq, hi]
  have hpre2 : ('\n' :: doubledHeader name ++ ['\n'])
      <+: renderGroup fss 80 name := by
    rw [hB, hgrp]
    exact hpre
  have hmm2 : renderGroup fss 80 name ∈ fss.order.map (renderGroup fss 80) :=
    List.mem_map.mpr ⟨name, hmem, rfl⟩
  exact hpre2.isInfix.trans (infix_of_mem_flatten hmm2)

def c6Fss : NamedFlagSets :=
  ⟨["test"],
    [("test", 0,
      ⟨[boolPFlag "help" "h"
        "aaaaaaaaaaaaaaaaaaaaaaaaaaaaaaaaaaaaaaaaaaaaaaaaaaaaaaaaaaaaaaaaaaaaaa"]⟩)]⟩

set_option maxRecDepth 65536 in
/-- Claim C6 (counterexample): at `columns = 80` the filler flag forces the
wrap primitive into its block mode (indent 16, width 80 - 16), and a flag
whose usage is one unbroken 70-character word renders a
16 + 70 = 86-character line — more than 80. -/
theorem printSections80_line_length_cex :
    maxLineLen (printSections c6Fss 80) = 86 := by
  decide

theorem printSections80_header_not_split_witness :
    ('\n' :: doubledHeader "test" ++ ['\n']) <:+: printSections c6Fss 80 :=
  printSections80_header_not_split c6Fss "test" (by decide) (by decide)
    (by decide) (by decide)

end CreateApp
